import Mathlib

/-!
Verification of the ParityDb-backed block store (`src/db/parity_db.rs`) and
the mock randomness beacon (`src/beacon/mock_beacon.rs`) of the Forest
blockchain client.

The store is embedded shallowly: the underlying `parity-db` engine (an
external collaborator, specified in the repository's design document only at
its interface boundary) is modelled as three in-memory association lists,
one per column, with an atomic multi-operation commit.  Machine integers are
`Nat`; byte strings are `List Nat`.  The Blake2b-256 hash function is
external to the repository's sources and is threaded through the development
as an explicit function parameter `h : List Nat → List Nat`, so every
theorem about code that recomputes hashes holds for the real hash function
in particular.
-/

namespace ForestDb

/-- Codec tag `fvm_ipld_encoding::DAG_CBOR` (0x71). -/
def DAG_CBOR : Nat := 0x71

/-- Multihash function code of `cid::multihash::Code::Blake2b256` (0xb220). -/
def BLAKE2B256 : Nat := 0xb220

/-- The three storage columns of Forest's `ParityDb` wrapper
(`enum DbColumn` in `src/db/parity_db.rs`). -/
inductive DbColumn where
  | GraphDagCborBlake2b256
  | GraphFull
  | Settings
deriving DecidableEq, Repr

/-- A content identifier: codec, multihash function code and digest bytes.
Forest only ever constructs v1 CIDs (`Cid::new_v1`), so the version is
fixed to 1 in the byte serialization. -/
structure Cid where
  codec : Nat
  hashCode : Nat
  digest : List Nat
deriving DecidableEq, Repr

/-- `Cid::new_v1(codec, multihash)` where the multihash is
`(hashCode, digest)`. -/
def Cid.newV1 (codec hashCode : Nat) (digest : List Nat) : Cid :=
  ⟨codec, hashCode, digest⟩

/-- Unsigned LEB128 encoding, fuelled so that it reduces by structural
recursion; `fuel > n` always suffices. -/
def varintEncAux : Nat → Nat → List Nat
  | 0, _ => []
  | fuel + 1, n =>
    if n < 128 then [n] else (n % 128 + 128) :: varintEncAux fuel (n / 128)

/-- Unsigned LEB128 encoding of a natural number, as used by the canonical
CID byte serialization. -/
def varintEnc (n : Nat) : List Nat := varintEncAux (n + 1) n

/-- Parse an unsigned LEB128 number from the front of a byte list, returning
the value and the remaining bytes. -/
def parseVarint : List Nat → Option (Nat × List Nat)
  | [] => none
  | b :: rest =>
    if b < 128 then some (b, rest)
    else
      match parseVarint rest with
      | some (m, r) => some (b - 128 + 128 * m, r)
      | none => none

theorem parseVarint_varintEncAux (fuel n : Nat) (hf : n < fuel) (l : List Nat) :
    parseVarint (varintEncAux fuel n ++ l) = some (n, l) := by
  induction fuel generalizing n with
  | zero => omega
  | succ f ih =>
    rw [varintEncAux]
    by_cases hn : n < 128
    · simp [hn, parseVarint]
    · have hdiv : n / 128 < n := Nat.div_lt_self (by omega) (by omega)
      have hrec : parseVarint (varintEncAux f (n / 128) ++ l) =
          some (n / 128, l) := ih (n / 128) (by omega)
      simp only [hn, if_false, List.cons_append, parseVarint]
      have hb : ¬ (n % 128 + 128 < 128) := by omega
      simp only [hb, if_false, hrec]
      have hval : n % 128 + 128 - 128 + 128 * (n / 128) = n := by omega
      rw [hval]

theorem parseVarint_varintEnc (n : Nat) (l : List Nat) :
    parseVarint (varintEnc n ++ l) = some (n, l) :=
  parseVarint_varintEncAux (n + 1) n (Nat.lt_succ_self n) l

/-- Modelled from the spec: the canonical byte serialization of a CID
(performed by the external `cid` crate's `Cid::to_bytes`): version varint,
codec varint, then the multihash as code varint, digest-size varint and raw
digest bytes.  Forest CIDs are v1. -/
def Cid.toBytes (c : Cid) : List Nat :=
  varintEnc 1 ++ varintEnc c.codec ++ varintEnc c.hashCode ++
    varintEnc c.digest.length ++ c.digest

/-- Modelled from the spec: parsing a stored key back into a CID
(`Cid::try_from` of the external `cid` crate), the partial inverse of
`Cid.toBytes`. -/
def Cid.fromBytes (bs : List Nat) : Option Cid :=
  match parseVarint bs with
  | none => none
  | some (v, r1) =>
    if v = 1 then
      match parseVarint r1 with
      | none => none
      | some (codec, r2) =>
        match parseVarint r2 with
        | none => none
        | some (hashCode, r3) =>
          match parseVarint r3 with
          | none => none
          | some (len, r4) =>
            if r4.length = len then some ⟨codec, hashCode, r4⟩ else none
    else none

theorem Cid.fromBytes_toBytes (c : Cid) : Cid.fromBytes c.toBytes = some c := by
  simp [Cid.toBytes, Cid.fromBytes, List.append_assoc, parseVarint_varintEnc]

theorem Cid.toBytes_injective : Function.Injective Cid.toBytes := by
  intro a b hab
  have ha := Cid.fromBytes_toBytes a
  have hb := Cid.fromBytes_toBytes b
  rw [hab, hb] at ha
  exact (Option.some.injEq _ _ ▸ ha).symm ▸ rfl

/-- Modelled from the spec: `truncated_hash` (declared in `crate::db`, outside
the staged sources) projects a multihash digest to a fixed-width 32-bit
value — the first four digest bytes read little-endian.  It is used only as
a compact liveness marker by the garbage collector. -/
def truncated_hash (digest : List Nat) : Nat :=
  digest.getD 0 0 + 256 * digest.getD 1 0 + 65536 * digest.getD 2 0 +
    16777216 * digest.getD 3 0

/-- `ParityDb::choose_column`: the canonical codec with the canonical hash
function selects the indexed-free canonical column; everything else falls
back to the `GraphFull` column.  `Settings` is never selected. -/
def choose_column (cid : Cid) : DbColumn :=
  if cid.codec = DAG_CBOR then
    if cid.hashCode = BLAKE2B256 then DbColumn.GraphDagCborBlake2b256
    else DbColumn.GraphFull
  else DbColumn.GraphFull

/-! ## The modelled engine state

Modelled from the spec: the underlying embedded key-value engine (the
external `parity-db` crate) provides, per column, point lookup and forward
iteration, and a single atomic multi-operation commit primitive.  A column's
contents are an association list of (key, value) byte strings; `commit`
applies a list of operations atomically. -/

/-- An engine operation over one key: `Operation::Set` or
`Operation::Dereference` of `parity-db`. -/
inductive DbOp where
  | set (key value : List Nat)
  | dereference (key : List Nat)
deriving DecidableEq, Repr

/-- The in-memory model of the open database: one association list per
column. -/
structure DbState where
  graphDagCborBlake2b256 : List (List Nat × List Nat)
  graphFull : List (List Nat × List Nat)
  settings : List (List Nat × List Nat)
deriving DecidableEq, Repr

/-- The empty, freshly created database. -/
def DbState.empty : DbState := ⟨[], [], []⟩

/-- Contents of one column. -/
def DbState.column (s : DbState) : DbColumn → List (List Nat × List Nat)
  | DbColumn.GraphDagCborBlake2b256 => s.graphDagCborBlake2b256
  | DbColumn.GraphFull => s.graphFull
  | DbColumn.Settings => s.settings

/-- Replace the contents of one column. -/
def DbState.setColumn (s : DbState) :
    DbColumn → List (List Nat × List Nat) → DbState
  | DbColumn.GraphDagCborBlake2b256, l => { s with graphDagCborBlake2b256 := l }
  | DbColumn.GraphFull, l => { s with graphFull := l }
  | DbColumn.Settings, l => { s with settings := l }

/-- First value stored under a key in an association list (engine point
lookup). -/
def assocGet (k : List Nat) : List (List Nat × List Nat) → Option (List Nat)
  | [] => none
  | (k', v) :: t => if k' = k then some v else assocGet k t

/-- `Operation::Set`: overwrite the value under a key, or append the pair if
the key is absent. -/
def listSet (k v : List Nat) : List (List Nat × List Nat) → List (List Nat × List Nat)
  | [] => [(k, v)]
  | (k', v') :: t => if k' = k then (k, v) :: t else (k', v') :: listSet k v t

/-- `Operation::Dereference`: delete-if-present, no error when absent. -/
def listDereference (k : List Nat) (l : List (List Nat × List Nat)) :
    List (List Nat × List Nat) :=
  l.filter (fun kv => kv.1 ≠ k)

/-- Apply one (column, operation) pair to the database state. -/
def applyOp (s : DbState) : DbColumn × DbOp → DbState
  | (col, DbOp.set k v) => s.setColumn col (listSet k v (s.column col))
  | (col, DbOp.dereference k) => s.setColumn col (listDereference k (s.column col))

/-- Modelled from the spec: the engine's `commit` applies a batch of
operations atomically — all of them, in order, or (on engine failure) none.
The successful case. -/
def commitOps (s : DbState) (ops : List (DbColumn × DbOp)) : DbState :=
  ops.foldl applyOp s

/-! ## The facade and the block store -/

/-- `ParityDb::read_from_column`: point lookup in one column.  The pure model
engine cannot raise I/O errors, so the `anyhow::Result` layer is dropped on
reads. -/
def read_from_column (s : DbState) (key : List Nat) (column : DbColumn) :
    Option (List Nat) :=
  assocGet key (s.column column)

/-- `ParityDb::write_to_column`: a single-`Set` atomic commit. -/
def write_to_column (s : DbState) (key value : List Nat) (column : DbColumn) :
    DbState :=
  commitOps s [(column, DbOp.set key value)]

/-- The match arms of `Blockstore::get` for `ParityDb`, dispatching on the
column chosen for the CID; the `Settings` arm is the source's
`panic!("invalid column for IPLD data")`, modelled as an error result. -/
def blockstoreGetDispatch (s : DbState) (column : DbColumn) (key : List Nat) :
    Except String (Option (List Nat)) :=
  match column with
  | DbColumn.GraphDagCborBlake2b256 =>
    Except.ok (read_from_column s key DbColumn.GraphDagCborBlake2b256)
  | DbColumn.GraphFull => Except.ok (read_from_column s key DbColumn.GraphFull)
  | DbColumn.Settings => Except.error "invalid column for IPLD data"

/-- `Blockstore::get` for `ParityDb`. -/
def blockstoreGet (s : DbState) (k : Cid) : Except String (Option (List Nat)) :=
  blockstoreGetDispatch s (choose_column k) k.toBytes

/-- The match arms of `Blockstore::put_keyed`, dispatching on the chosen
column; the `Settings` arm is the source's panic, modelled as an error. -/
def putKeyedDispatch (s : DbState) (column : DbColumn) (key value : List Nat) :
    Except String DbState :=
  match column with
  | DbColumn.GraphDagCborBlake2b256 =>
    Except.ok (write_to_column s key value DbColumn.GraphDagCborBlake2b256)
  | DbColumn.GraphFull =>
    Except.ok (write_to_column s key value DbColumn.GraphFull)
  | DbColumn.Settings => Except.error "invalid column for IPLD data"

/-- `Blockstore::put_keyed` for `ParityDb`. -/
def put_keyed (s : DbState) (k : Cid) (block : List Nat) : Except String DbState :=
  putKeyedDispatch s (choose_column k) k.toBytes block

/-- The single transaction built by `Blockstore::put_many_keyed`: one `Set`
per block, each routed to its column by `choose_column`. -/
def putManyTx (blocks : List (Cid × List Nat)) : List (DbColumn × DbOp) :=
  blocks.map fun kv => (choose_column kv.1, DbOp.set kv.1.toBytes kv.2)

/-- `Blockstore::put_many_keyed`: the whole batch goes through one
`commit_changes` call.  `engineFails` models the engine's commit outcome:
on failure the atomic commit applies nothing and the error is surfaced
(`error bulk writing`); on success every operation is applied. -/
def put_many_keyed (engineFails : Bool) (s : DbState)
    (blocks : List (Cid × List Nat)) : DbState × Option String :=
  if engineFails then (s, some "error bulk writing")
  else (commitOps s (putManyTx blocks), none)

/-! ## Settings store and statistics -/

/-- Whether a byte is a UTF-8 continuation byte. -/
def utf8Cont (b : Nat) : Prop := 0x80 ≤ b ∧ b ≤ 0xBF

instance (b : Nat) : Decidable (utf8Cont b) := by
  unfold utf8Cont; infer_instance

/-- Modelled from the spec: strict UTF-8 decoding (`String::from_utf8` of the
Rust standard library) of a byte list into unicode scalar values; `none` on
any ill-formed input (bad leading byte, truncated sequence, bad continuation
byte, overlong form, surrogate, or out-of-range value). -/
def decodeUtf8 : List Nat → Option (List Nat)
  | [] => some []
  | b :: rest =>
    if b ≤ 0x7F then (decodeUtf8 rest).map (fun t => b :: t)
    else if 0xC2 ≤ b ∧ b ≤ 0xDF then
      match rest with
      | c1 :: r =>
        if utf8Cont c1 then
          (decodeUtf8 r).map (fun t => ((b - 0xC0) * 0x40 + (c1 - 0x80)) :: t)
        else none
      | [] => none
    else if 0xE0 ≤ b ∧ b ≤ 0xEF then
      match rest with
      | c1 :: c2 :: r =>
        if utf8Cont c1 ∧ utf8Cont c2 ∧ (b = 0xE0 → 0xA0 ≤ c1) ∧
            (b = 0xED → c1 ≤ 0x9F) then
          (decodeUtf8 r).map
            (fun t => ((b - 0xE0) * 0x1000 + (c1 - 0x80) * 0x40 + (c2 - 0x80)) :: t)
        else none
      | _ => none
    else if 0xF0 ≤ b ∧ b ≤ 0xF4 then
      match rest with
      | c1 :: c2 :: c3 :: r =>
        if utf8Cont c1 ∧ utf8Cont c2 ∧ utf8Cont c3 ∧ (b = 0xF0 → 0x90 ≤ c1) ∧
            (b = 0xF4 → c1 ≤ 0x8F) then
          (decodeUtf8 r).map
            (fun t =>
              ((b - 0xF0) * 0x40000 + (c1 - 0x80) * 0x1000 + (c2 - 0x80) * 0x40 +
                (c3 - 0x80)) :: t)
        else none
      | _ => none
    else none

/-- The key-collecting loop of `SettingsStore::setting_keys`: pushes each
decoded key in iteration order; the first non-UTF-8 key aborts with an
error (the `?` on `String::from_utf8`). -/
def settingKeysLoop : List (List Nat × List Nat) → Except String (List (List Nat))
  | [] => Except.ok []
  | (k, _) :: t =>
    match decodeUtf8 k with
    | none => Except.error "invalid utf-8 in settings key"
    | some str =>
      match settingKeysLoop t with
      | Except.ok l => Except.ok (str :: l)
      | Except.error e => Except.error e

/-- `SettingsStore::setting_keys`: enumerate the settings column's keys as
UTF-8 strings (here: lists of unicode scalar values). -/
def setting_keys (s : DbState) : Except String (List (List Nat)) :=
  settingKeysLoop s.settings

/-- `DBStatistics::get_statistics`.  `statisticsEnabled` is the flag captured
at open time; `engineReport` models the outcome of the engine's
`write_stats_text` (external collaborator): an error or the raw bytes it
wrote.  Both failure modes are logged and downgraded to `none`, never
propagated. -/
def get_statistics (statisticsEnabled : Bool)
    (engineReport : Except String (List Nat)) : Option (List Nat) :=
  if !statisticsEnabled then none
  else
    match engineReport with
    | Except.error _ => none
    | Except.ok buf =>
      match decodeUtf8 buf with
      | some stats => some stats
      | none => none

/-! ## Garbage collector -/

/-- `ParityDb::dereference_operation`: the delete-if-present operation for a
record, routed to the column `choose_column` picks for its CID. -/
def dereference_operation (key : Cid) : DbColumn × DbOp :=
  (choose_column key, DbOp.dereference key.toBytes)

/-- Apply one single-operation `commit_changes` holding a dereference. -/
def applyDereference (key : Cid) (s : DbState) : DbState :=
  commitOps s [dereference_operation key]

/-- The `GraphFull` loop of `GarbageCollectable::get_keys`: iterate the
indexed column's keys, parse each back into a CID (the `?` on
`Cid::try_from` aborts with an error), and record the truncated multihash
digest. -/
def getKeysGraphFull : List (List Nat × List Nat) → Finset Nat →
    Except String (Finset Nat)
  | [], acc => Except.ok acc
  | (k, _) :: t, acc =>
    match Cid.fromBytes k with
    | none => Except.error "invalid cid bytes"
    | some cid => getKeysGraphFull t (insert (truncated_hash cid.digest) acc)

/-- `GarbageCollectable::get_keys`: the `GraphFull` keys pass followed by the
`GraphDagCborBlake2b256` values pass, which recomputes each value's
Blake2b-256 hash (`h`) and records its truncation.  The second pass's
closure always returns `true`, so it never stops early. -/
def get_keys (h : List Nat → List Nat) (s : DbState) : Except String (Finset Nat) :=
  match getKeysGraphFull s.graphFull ∅ with
  | Except.error e => Except.error e
  | Except.ok set1 =>
    Except.ok
      (s.graphDagCborBlake2b256.foldl
        (fun acc kv => insert (truncated_hash (h kv.2)) acc) set1)

/-- The `GraphFull` sweep loop of `GarbageCollectable::remove_keys`: for each
key of the (snapshot) column, parse the CID (`?` aborts on failure); if its
truncated hash is targeted, commit a single dereference.  `oracle` models
the engine outcome of each such one-operation `commit_changes`: `true`
means that commit fails, which surfaces `error remove` and stops the sweep
with the state as mutated so far. -/
def removeKeysGraphFull (oracle : Cid → Bool) (keys : Finset Nat) :
    List (List Nat × List Nat) → DbState → DbState × Option String
  | [], s => (s, none)
  | (k, _) :: t, s =>
    match Cid.fromBytes k with
    | none => (s, some "invalid cid bytes")
    | some cid =>
      if truncated_hash cid.digest ∈ keys then
        if oracle cid then (s, some "error remove")
        else removeKeysGraphFull oracle keys t (applyDereference cid s)
      else removeKeysGraphFull oracle keys t s

/-- The `GraphDagCborBlake2b256` sweep loop of
`GarbageCollectable::remove_keys` (`iter_column_while`): recompute each
value's hash; if targeted, reconstruct the CID as
`Cid::new_v1(DAG_CBOR, hash)` and commit a single dereference; a failing
dereference commit captures the error in the outer `result` variable and
returns `false`, stopping the iteration. -/
def removeKeysDagCbor (h : List Nat → List Nat) (oracle : Cid → Bool)
    (keys : Finset Nat) :
    List (List Nat × List Nat) → DbState → DbState × Option String
  | [], s => (s, none)
  | (_, v) :: t, s =>
    if truncated_hash (h v) ∈ keys then
      let cid := Cid.newV1 DAG_CBOR BLAKE2B256 (h v)
      if oracle cid then (s, some "error remove")
      else removeKeysDagCbor h oracle keys t (applyDereference cid s)
    else removeKeysDagCbor h oracle keys t s

/-- `GarbageCollectable::remove_keys`: the `GraphFull` pass runs first and
its error (via `?`) skips the second pass; otherwise the
`GraphDagCborBlake2b256` pass runs over the column as left by the first
pass, and its captured `result` is returned. -/
def remove_keys (h : List Nat → List Nat) (oracle : Cid → Bool)
    (keys : Finset Nat) (s : DbState) : DbState × Option String :=
  match removeKeysGraphFull oracle keys s.graphFull s with
  | (s1, some e) => (s1, some e)
  | (s1, none) => removeKeysDagCbor h oracle keys s1.graphDagCborBlake2b256 s1

end ForestDb

namespace ForestBeacon

/-- `BeaconEntry` (`blockchain/beacon/src/beacon_entries.rs`): a round number
(u64) and opaque data bytes. -/
structure BeaconEntry where
  round : Nat
  data : List Nat
deriving DecidableEq, Repr

/-- `BeaconEntry::new`. -/
def BeaconEntry.new (round : Nat) (data : List Nat) : BeaconEntry :=
  ⟨round, data⟩

/-- Modelled from the spec: `BigEndian::write_u64` (external `byteorder`
crate) writes the 8-byte big-endian encoding of a u64.  For a `Nat` this
reads the low 64 bits, most significant byte first. -/
def beBytes8 (n : Nat) : List Nat :=
  [n / 72057594037927936 % 256, n / 281474976710656 % 256,
   n / 1099511627776 % 256, n / 4294967296 % 256, n / 16777216 % 256,
   n / 65536 % 256, n / 256 % 256, n % 256]

/-- `MockBeacon::entry_for_index`: the entry for a round is the Blake2b-256
hash (`h`, external to the staged sources) of the round's 8-byte big-endian
encoding. -/
def entry_for_index (h : List Nat → List Nat) (index : Nat) : BeaconEntry :=
  BeaconEntry.new index (h (beBytes8 index))

/-- `Beacon::verify_entry` for `MockBeacon`: recompute the entry for the
previous entry's round and compare its data with the current entry's data;
always returns `Ok`. -/
def verify_entry (h : List Nat → List Nat) (curr prev : BeaconEntry) :
    Except String Bool :=
  Except.ok ((entry_for_index h prev.round).data == curr.data)

/-- `Beacon::entry` for `MockBeacon`: always `Ok`, delegating to
`entry_for_index`. -/
def entry (h : List Nat → List Nat) (round : Nat) : Except String BeaconEntry :=
  Except.ok (entry_for_index h round)

end ForestBeacon

namespace ForestDb

/-! ## Helper lemmas about the modelled engine -/

theorem choose_column_ne_settings (c : Cid) : choose_column c ≠ DbColumn.Settings := by
  unfold choose_column
  split_ifs <;> simp

theorem assocGet_listSet_self (k v : List Nat) (l : List (List Nat × List Nat)) :
    assocGet k (listSet k v l) = some v := by
  induction l with
  | nil => simp [listSet, assocGet]
  | cons hd t ih =>
    obtain ⟨k', v'⟩ := hd
    by_cases hk : k' = k
    · simp [listSet, hk, assocGet]
    · simp [listSet, hk, assocGet, ih]

theorem assocGet_listSet_ne (k k' v : List Nat) (l : List (List Nat × List Nat))
    (hne : k' ≠ k) : assocGet k (listSet k' v l) = assocGet k l := by
  induction l with
  | nil => simp [listSet, assocGet, hne]
  | cons hd t ih =>
    obtain ⟨k0, v0⟩ := hd
    by_cases hk : k0 = k'
    · subst hk
      simp [listSet, assocGet, hne]
    · simp [listSet, hk, assocGet, ih]

theorem assocGet_listDereference_ne (k k' : List Nat)
    (l : List (List Nat × List Nat)) (hne : k' ≠ k) :
    assocGet k (listDereference k' l) = assocGet k l := by
  have hkk : k ≠ k' := fun h => hne h.symm
  induction l with
  | nil => rfl
  | cons hd t ih =>
    obtain ⟨k0, v0⟩ := hd
    simp only [listDereference, List.filter_cons, ne_eq, decide_not] at ih ⊢
    by_cases hk : k0 = k'
    · subst hk
      have hk2 : k0 ≠ k := hne
      simp [assocGet, hk2, ih]
    · by_cases hk2 : k0 = k
      · subst hk2
        simp [assocGet, hk, hkk, ih]
      · simp [assocGet, hk, hk2, ih]

theorem assocGet_some_mem (k v : List Nat) (l : List (List Nat × List Nat))
    (hget : assocGet k l = some v) : (k, v) ∈ l := by
  induction l with
  | nil => simp [assocGet] at hget
  | cons hd t ih =>
    obtain ⟨k0, v0⟩ := hd
    by_cases hk : k0 = k
    · subst hk
      simp [assocGet] at hget
      simp [hget]
    · simp [assocGet, hk] at hget
      exact List.mem_cons_of_mem _ (ih hget)

theorem mem_listDereference (k : List Nat) (kv : List Nat × List Nat)
    (l : List (List Nat × List Nat)) (hmem : kv ∈ l) (hne : kv.1 ≠ k) :
    kv ∈ listDereference k l := by
  unfold listDereference
  rw [List.mem_filter]
  exact ⟨hmem, by simpa using hne⟩

theorem column_setColumn (s : DbState) (col col' : DbColumn)
    (l : List (List Nat × List Nat)) :
    (s.setColumn col l).column col' = if col = col' then l else s.column col' := by
  cases col <;> cases col' <;> simp [DbState.setColumn, DbState.column]

theorem settings_setColumn_data (s : DbState) (col : DbColumn)
    (l : List (List Nat × List Nat)) (hcol : col ≠ DbColumn.Settings) :
    (s.setColumn col l).settings = s.settings := by
  cases col <;> simp_all [DbState.setColumn]

/-- The key an operation touches. -/
def opKey : DbOp → List Nat
  | DbOp.set k _ => k
  | DbOp.dereference k => k

theorem read_applyOp_ne (s : DbState) (op : DbColumn × DbOp) (k : List Nat)
    (col : DbColumn) (hne : opKey op.2 ≠ k) :
    read_from_column (applyOp s op) k col = read_from_column s k col := by
  obtain ⟨col', o⟩ := op
  cases o with
  | set k' v =>
    simp only [opKey] at hne
    simp only [applyOp, read_from_column, column_setColumn]
    by_cases hc : col' = col
    · subst hc
      simp [assocGet_listSet_ne _ _ _ _ hne]
    · simp [hc]
  | dereference k' =>
    simp only [opKey] at hne
    simp only [applyOp, read_from_column, column_setColumn]
    by_cases hc : col' = col
    · subst hc
      simp [assocGet_listDereference_ne _ _ _ hne]
    · simp [hc]

theorem read_commitOps_ne (ops : List (DbColumn × DbOp)) (s : DbState)
    (k : List Nat) (col : DbColumn) (hne : ∀ op ∈ ops, opKey op.2 ≠ k) :
    read_from_column (commitOps s ops) k col = read_from_column s k col := by
  induction ops generalizing s with
  | nil => simp [commitOps]
  | cons hd t ih =>
    simp only [commitOps, List.foldl_cons] at *
    rw [ih (applyOp s hd) fun op hop => hne op (List.mem_cons_of_mem _ hop)]
    exact read_applyOp_ne s hd k col (hne hd (List.mem_cons_self _ _))

/-- Decidable well-formedness of one stored key for a data column: it parses
back into a CID that `choose_column` routes to that column. -/
def keyWf (col : DbColumn) (k : List Nat) : Bool :=
  match Cid.fromBytes k with
  | some c => decide (choose_column c = col)
  | none => false

theorem keyWf_iff (col : DbColumn) (k : List Nat) :
    keyWf col k = true ↔ ∃ c, Cid.fromBytes k = some c ∧ choose_column c = col := by
  unfold keyWf
  cases hk : Cid.fromBytes k <;> simp

/-- The invariant a store maintained through the block-store API satisfies:
every key of a data column belongs to that column according to
`choose_column`. -/
def ColumnKeysConsistent (s : DbState) : Prop :=
  (∀ kv ∈ s.graphFull, keyWf DbColumn.GraphFull kv.1 = true) ∧
  (∀ kv ∈ s.graphDagCborBlake2b256,
    keyWf DbColumn.GraphDagCborBlake2b256 kv.1 = true)

instance (s : DbState) : Decidable (ColumnKeysConsistent s) := by
  unfold ColumnKeysConsistent
  infer_instance

/-- The data column `choose_column` did not select. -/
def otherDataColumn : DbColumn → DbColumn
  | DbColumn.GraphDagCborBlake2b256 => DbColumn.GraphFull
  | DbColumn.GraphFull => DbColumn.GraphDagCborBlake2b256
  | DbColumn.Settings => DbColumn.Settings

end ForestDb

namespace ForestDb

/-! ## Claim theorems -/

/-- C1: `choose_column` is a deterministic pure function of the CID's codec
and hash-function code: it returns `GraphDagCborBlake2b256` exactly for
DAG-CBOR + Blake2b-256 CIDs, `GraphFull` for every other CID, and never
`Settings`. -/
theorem choose_column_partition (c : Cid) :
    (choose_column c = DbColumn.GraphDagCborBlake2b256 ↔
      c.codec = DAG_CBOR ∧ c.hashCode = BLAKE2B256) ∧
    (choose_column c = DbColumn.GraphFull ↔
      ¬(c.codec = DAG_CBOR ∧ c.hashCode = BLAKE2B256)) ∧
    choose_column c ≠ DbColumn.Settings := by
  unfold choose_column
  split_ifs <;> simp_all

/-- C7: the `Settings` match arm of `Blockstore::get`/`put_keyed` fails fast
(an invariant violation, never a degraded result and never a write to the
settings namespace), and since `choose_column` never produces `Settings`,
the arm is unreachable: both operations succeed on every CID and `put_keyed`
leaves the settings column untouched. -/
theorem settings_branch_fails_fast (s : DbState) (k v : List Nat) (c : Cid) :
    blockstoreGetDispatch s DbColumn.Settings k =
      Except.error "invalid column for IPLD data" ∧
    putKeyedDispatch s DbColumn.Settings k v =
      Except.error "invalid column for IPLD data" ∧
    choose_column c ≠ DbColumn.Settings ∧
    (∃ r, blockstoreGet s c = Except.ok r) ∧
    (∃ s', put_keyed s c v = Except.ok s' ∧ s'.settings = s.settings) := by
  refine ⟨rfl, rfl, choose_column_ne_settings c, ?_, ?_⟩
  · unfold blockstoreGet blockstoreGetDispatch
    rcases hcol : choose_column c with _ | _ | _
    · exact ⟨_, rfl⟩
    · exact ⟨_, rfl⟩
    · exact absurd hcol (choose_column_ne_settings c)
  · unfold put_keyed putKeyedDispatch
    rcases hcol : choose_column c with _ | _ | _
    · exact ⟨_, rfl, rfl⟩
    · exact ⟨_, rfl, rfl⟩
    · exact absurd hcol (choose_column_ne_settings c)

theorem settingKeysLoop_ok (l : List (List Nat × List Nat))
    (hdec : ∀ kv ∈ l, (decodeUtf8 kv.1).isSome) :
    settingKeysLoop l = Except.ok (l.map fun kv => (decodeUtf8 kv.1).getD []) := by
  induction l with
  | nil => simp [settingKeysLoop]
  | cons hd t ih =>
    obtain ⟨k, v⟩ := hd
    have hh := hdec (k, v) (List.mem_cons_self _ _)
    cases hk : decodeUtf8 k with
    | none => simp [hk] at hh
    | some str =>
      simp only [settingKeysLoop, hk,
        ih fun kv hkv => hdec kv (List.mem_cons_of_mem _ hkv)]
      simp [hk]

theorem settingKeysLoop_err (l : List (List Nat × List Nat))
    (hbad : ∃ kv ∈ l, decodeUtf8 kv.1 = none) :
    ∃ e, settingKeysLoop l = Except.error e := by
  induction l with
  | nil => simp at hbad
  | cons hd t ih =>
    obtain ⟨k, v⟩ := hd
    cases hk : decodeUtf8 k with
    | none =>
      exact ⟨"invalid utf-8 in settings key", by simp [settingKeysLoop, hk]⟩
    | some str =>
      obtain ⟨kv, hkv, hnone⟩ := hbad
      rcases List.mem_cons.mp hkv with heq | hmem
      · subst heq
        simp only at hnone
        rw [hnone] at hk
        cases hk
      · obtain ⟨e, he⟩ := ih ⟨kv, hmem, hnone⟩
        exact ⟨e, by simp [settingKeysLoop, hk, he]⟩

/-- C8: `setting_keys` returns the stored keys decoded as UTF-8 strings, in
iteration order; if any stored key is not valid UTF-8 the whole call
surfaces an error instead of skipping the key or silently returning a
partial result. -/
theorem setting_keys_utf8 (s : DbState) :
    ((∀ kv ∈ s.settings, (decodeUtf8 kv.1).isSome) →
      setting_keys s =
        Except.ok (s.settings.map fun kv => (decodeUtf8 kv.1).getD [])) ∧
    ((∃ kv ∈ s.settings, decodeUtf8 kv.1 = none) →
      ∃ e, setting_keys s = Except.error e) := by
  exact ⟨fun hdec => settingKeysLoop_ok s.settings hdec,
    fun hbad => settingKeysLoop_err s.settings hbad⟩

/-- C9: `get_statistics` returns `none` whenever statistics were not enabled
at open time, and also returns `none` — never an error — when the engine
fails to produce a report or produces non-UTF-8 output. -/
theorem get_statistics_diagnostic (enabled : Bool)
    (engineReport : Except String (List Nat)) :
    (enabled = false → get_statistics enabled engineReport = none) ∧
    (∀ e, engineReport = Except.error e →
      get_statistics enabled engineReport = none) ∧
    (∀ buf, engineReport = Except.ok buf → decodeUtf8 buf = none →
      get_statistics enabled engineReport = none) := by
  refine ⟨fun h => by simp [get_statistics, h], fun e he => ?_, fun buf hb hd => ?_⟩
  · cases enabled <;> simp [get_statistics, he]
  · cases enabled <;> simp [get_statistics, hb, hd]

/-- C10: `MockBeacon::verify_entry` never returns an error; it returns
`Ok(true)` exactly when the current entry's data equals the hash of the
8-byte big-endian encoding of the previous entry's round; in particular,
an entry always verifies against itself. -/
theorem mock_beacon_verify_entry_spec (h : List Nat → List Nat)
    (curr prev : ForestBeacon.BeaconEntry) (r : Nat) :
    (∃ b, ForestBeacon.verify_entry h curr prev = Except.ok b) ∧
    (ForestBeacon.verify_entry h curr prev = Except.ok true ↔
      curr.data = h (ForestBeacon.beBytes8 prev.round)) ∧
    ForestBeacon.verify_entry h (ForestBeacon.entry_for_index h r)
      (ForestBeacon.entry_for_index h r) = Except.ok true := by
  refine ⟨⟨_, rfl⟩, ?_, ?_⟩
  · unfold ForestBeacon.verify_entry ForestBeacon.entry_for_index
      ForestBeacon.BeaconEntry.new
    simp only [Except.ok.injEq]
    rw [beq_iff_eq]
    exact ⟨fun hh => hh.symm, fun hh => hh.symm⟩
  · unfold ForestBeacon.verify_entry ForestBeacon.entry_for_index
      ForestBeacon.BeaconEntry.new
    simp

theorem read_write_same (s : DbState) (k v : List Nat) (col : DbColumn) :
    read_from_column (write_to_column s k v col) k col = some v := by
  unfold write_to_column commitOps read_from_column
  simp only [List.foldl_cons, List.foldl_nil, applyOp]
  rw [column_setColumn]
  simp [assocGet_listSet_self]

theorem read_write_other (s : DbState) (k v k' : List Nat) (col col' : DbColumn)
    (hne : col ≠ col') :
    read_from_column (write_to_column s k v col) k' col' =
      read_from_column s k' col' := by
  unfold write_to_column commitOps read_from_column
  simp only [List.foldl_cons, List.foldl_nil, applyOp]
  rw [column_setColumn]
  simp [hne]

theorem read_other_data_column_none (s : DbState) (c : Cid)
    (hcons : ColumnKeysConsistent s) :
    read_from_column s c.toBytes (otherDataColumn (choose_column c)) = none := by
  obtain ⟨hfull, hdag⟩ := hcons
  rcases hcol : choose_column c with _ | _ | _
  · -- chosen column is canonical, the other data column is GraphFull
    simp only [otherDataColumn]
    cases hget : read_from_column s c.toBytes DbColumn.GraphFull with
    | none => rfl
    | some v' =>
      have hmem := assocGet_some_mem _ _ _ hget
      have hwf := hfull _ hmem
      rw [keyWf_iff] at hwf
      obtain ⟨c', hc', hchoose⟩ := hwf
      rw [Cid.fromBytes_toBytes] at hc'
      cases hc'
      rw [hcol] at hchoose
      cases hchoose
  · -- chosen column is GraphFull, the other data column is the canonical one
    simp only [otherDataColumn]
    cases hget : read_from_column s c.toBytes DbColumn.GraphDagCborBlake2b256 with
    | none => rfl
    | some v' =>
      have hmem := assocGet_some_mem _ _ _ hget
      have hwf := hdag _ hmem
      rw [keyWf_iff] at hwf
      obtain ⟨c', hc', hchoose⟩ := hwf
      rw [Cid.fromBytes_toBytes] at hc'
      cases hc'
      rw [hcol] at hchoose
      cases hchoose
  · exact absurd hcol (choose_column_ne_settings c)

/-- C2: in a store whose data columns hold only keys belonging to them (the
invariant every store maintained through the block-store API satisfies),
`put_keyed(cid, bytes)` followed by `get(cid)` returns `Some(bytes)`, and
reading the CID's key from the data column `choose_column` did not select
returns `None`. -/
theorem put_get_round_trip (s : DbState) (c : Cid) (v : List Nat)
    (hcons : ColumnKeysConsistent s) :
    ∃ s', put_keyed s c v = Except.ok s' ∧
      blockstoreGet s' c = Except.ok (some v) ∧
      read_from_column s' c.toBytes (otherDataColumn (choose_column c)) = none := by
  have hother := read_other_data_column_none s c hcons
  rcases hcol : choose_column c with _ | _ | _
  · refine ⟨write_to_column s c.toBytes v DbColumn.GraphDagCborBlake2b256,
      ?_, ?_, ?_⟩
    · unfold put_keyed
      rw [hcol]
      rfl
    · unfold blockstoreGet
      rw [hcol]
      unfold blockstoreGetDispatch
      rw [read_write_same]
    · rw [hcol] at hother
      simp only [otherDataColumn] at hother ⊢
      rw [read_write_other _ _ _ _ _ _ (by decide)]
      exact hother
  · refine ⟨write_to_column s c.toBytes v DbColumn.GraphFull, ?_, ?_, ?_⟩
    · unfold put_keyed
      rw [hcol]
      rfl
    · unfold blockstoreGet
      rw [hcol]
      unfold blockstoreGetDispatch
      rw [read_write_same]
    · rw [hcol] at hother
      simp only [otherDataColumn] at hother ⊢
      rw [read_write_other _ _ _ _ _ _ (by decide)]
      exact hother
  · exact absurd hcol (choose_column_ne_settings c)

/-- Witness for C2 at a concrete canonical CID in the empty store. -/
theorem put_get_round_trip_witness :
    ∃ s', put_keyed DbState.empty ⟨0x71, 0xb220, [1, 2, 3, 4]⟩ [5, 6] =
        Except.ok s' ∧
      blockstoreGet s' ⟨0x71, 0xb220, [1, 2, 3, 4]⟩ = Except.ok (some [5, 6]) ∧
      read_from_column s' (Cid.toBytes ⟨0x71, 0xb220, [1, 2, 3, 4]⟩)
        (otherDataColumn (choose_column ⟨0x71, 0xb220, [1, 2, 3, 4]⟩)) = none :=
  put_get_round_trip DbState.empty ⟨0x71, 0xb220, [1, 2, 3, 4]⟩ [5, 6] (by decide)

theorem putManyTx_cons (kv : Cid × List Nat) (t : List (Cid × List Nat)) :
    putManyTx (kv :: t) =
      (choose_column kv.1, DbOp.set kv.1.toBytes kv.2) :: putManyTx t := rfl

theorem commitOps_cons (s : DbState) (op : DbColumn × DbOp)
    (ops : List (DbColumn × DbOp)) :
    commitOps s (op :: ops) = commitOps (applyOp s op) ops := rfl

theorem read_commit_putManyTx (blocks : List (Cid × List Nat)) (s : DbState)
    (hnd : (blocks.map fun kv => kv.1.toBytes).Nodup) :
    ∀ kv ∈ blocks,
      read_from_column (commitOps s (putManyTx blocks)) kv.1.toBytes
        (choose_column kv.1) = some kv.2 := by
  induction blocks generalizing s with
  | nil => simp
  | cons hd t ih =>
    rw [List.map_cons, List.nodup_cons] at hnd
    obtain ⟨hnotmem, hndt⟩ := hnd
    intro kv hkv
    rw [putManyTx_cons, commitOps_cons]
    rcases List.mem_cons.mp hkv with heq | hmem
    · subst heq
      rw [read_commitOps_ne]
      · exact read_write_same s kv.1.toBytes kv.2 (choose_column kv.1)
      · intro op hop
        obtain ⟨kv', hkv', hop'⟩ := List.mem_map.mp hop
        subst hop'
        simp only [opKey]
        intro heq'
        exact hnotmem (heq' ▸ List.mem_map.mpr ⟨kv', hkv', rfl⟩)
    · exact ih (applyOp s _) hndt kv hmem

/-- C3: `put_many_keyed` routes each block to its column via
`choose_column`, builds one `Set` per block and submits them in one atomic
`commit_changes`: on success every block of the batch (distinct keys) is
readable afterwards, and on engine failure the commit applies nothing — the
store is exactly as before and the error is surfaced. -/
theorem put_many_keyed_atomic (s : DbState) (blocks : List (Cid × List Nat))
    (hnd : (blocks.map fun kv => kv.1.toBytes).Nodup) :
    ((put_many_keyed false s blocks).2 = none ∧
      ∀ kv ∈ blocks,
        blockstoreGet (put_many_keyed false s blocks).1 kv.1 =
          Except.ok (some kv.2)) ∧
    put_many_keyed true s blocks = (s, some "error bulk writing") := by
  refine ⟨⟨rfl, ?_⟩, rfl⟩
  intro kv hkv
  have hr := read_commit_putManyTx blocks s hnd kv hkv
  have hfst : (put_many_keyed false s blocks).1 = commitOps s (putManyTx blocks) :=
    rfl
  rw [hfst]
  unfold blockstoreGet
  rcases hcol : choose_column kv.1 with _ | _ | _
  · rw [hcol] at hr
    unfold blockstoreGetDispatch
    rw [hr]
  · rw [hcol] at hr
    unfold blockstoreGetDispatch
    rw [hr]
  · exact absurd hcol (choose_column_ne_settings kv.1)

/-- Witness for C3: a two-block batch spanning both data columns in the
empty store. -/
theorem put_many_keyed_atomic_witness :
    ((put_many_keyed false DbState.empty
        [(⟨0x71, 0xb220, [1, 2, 3, 4]⟩, [10]), (⟨0x55, 0xb220, [9]⟩, [20])]).2 =
        none ∧
      ∀ kv ∈ [((⟨0x71, 0xb220, [1, 2, 3, 4]⟩ : Cid), [10]),
          (⟨0x55, 0xb220, [9]⟩, [20])],
        blockstoreGet
          (put_many_keyed false DbState.empty
            [(⟨0x71, 0xb220, [1, 2, 3, 4]⟩, [10]), (⟨0x55, 0xb220, [9]⟩, [20])]).1
          kv.1 = Except.ok (some kv.2)) ∧
    put_many_keyed true DbState.empty
        [(⟨0x71, 0xb220, [1, 2, 3, 4]⟩, [10]), (⟨0x55, 0xb220, [9]⟩, [20])] =
      (DbState.empty, some "error bulk writing") :=
  put_many_keyed_atomic DbState.empty
    [(⟨0x71, 0xb220, [1, 2, 3, 4]⟩, [10]), (⟨0x55, 0xb220, [9]⟩, [20])]
    (by decide)

theorem mem_foldl_insert (l : List (List Nat × List Nat))
    (f : List Nat × List Nat → Nat) (acc : Finset Nat) (x : Nat) :
    x ∈ l.foldl (fun a kv => insert (f kv) a) acc ↔
      x ∈ acc ∨ ∃ kv ∈ l, x = f kv := by
  induction l generalizing acc with
  | nil => simp
  | cons hd t ih =>
    simp only [List.foldl_cons, ih, Finset.mem_insert, List.mem_cons]
    constructor
    · rintro ((hx | hx) | ⟨kv, hkv, hx⟩)
      · exact Or.inr ⟨hd, Or.inl rfl, hx⟩
      · exact Or.inl hx
      · exact Or.inr ⟨kv, Or.inr hkv, hx⟩
    · rintro (hx | ⟨kv, hkv | hkv, hx⟩)
      · exact Or.inl (Or.inr hx)
      · exact Or.inl (Or.inl (hkv ▸ hx))
      · exact Or.inr ⟨kv, hkv, hx⟩

theorem getKeysGraphFull_ok (l : List (List Nat × List Nat)) (acc : Finset Nat)
    (hp : ∀ kv ∈ l, (Cid.fromBytes kv.1).isSome) :
    ∃ S, getKeysGraphFull l acc = Except.ok S ∧
      ∀ x, x ∈ S ↔ x ∈ acc ∨ ∃ kv ∈ l, ∃ c, Cid.fromBytes kv.1 = some c ∧
        x = truncated_hash c.digest := by
  induction l generalizing acc with
  | nil => exact ⟨acc, rfl, by simp⟩
  | cons hd t ih =>
    obtain ⟨k, v⟩ := hd
    have hs := hp (k, v) (List.mem_cons_self _ _)
    cases hk : Cid.fromBytes k with
    | none => rw [hk] at hs; simp at hs
    | some c =>
      obtain ⟨S, hS, hmem⟩ := ih (insert (truncated_hash c.digest) acc)
        (fun kv hkv => hp kv (List.mem_cons_of_mem _ hkv))
      refine ⟨S, by simp [getKeysGraphFull, hk, hS], ?_⟩
      intro x
      rw [hmem x, Finset.mem_insert]
      simp only [List.mem_cons]
      constructor
      · rintro ((hx | hx) | ⟨kv, hkv, c', hc', hx⟩)
        · exact Or.inr ⟨(k, v), Or.inl rfl, c, hk, hx⟩
        · exact Or.inl hx
        · exact Or.inr ⟨kv, Or.inr hkv, c', hc', hx⟩
      · rintro (hx | ⟨kv, hkv | hkv, c', hc', hx⟩)
        · exact Or.inl (Or.inr hx)
        · subst hkv
          rw [hk] at hc'
          cases hc'
          exact Or.inl (Or.inl hx)
        · exact Or.inr ⟨kv, hkv, c', hc', hx⟩

/-- C4: the GC live-set computation returns exactly the set of truncated
hashes contributed by (a) the CID parsed from each `GraphFull` key and (b)
the hash recomputed from each `GraphDagCborBlake2b256` value. -/
theorem get_keys_live_set (h : List Nat → List Nat) (s : DbState)
    (hp : ∀ kv ∈ s.graphFull, (Cid.fromBytes kv.1).isSome) :
    ∃ S, get_keys h s = Except.ok S ∧
      ∀ x, x ∈ S ↔
        (∃ kv ∈ s.graphFull, ∃ c, Cid.fromBytes kv.1 = some c ∧
          x = truncated_hash c.digest) ∨
        (∃ kv ∈ s.graphDagCborBlake2b256, x = truncated_hash (h kv.2)) := by
  obtain ⟨S1, hS1, hmem1⟩ := getKeysGraphFull_ok s.graphFull ∅ hp
  refine ⟨s.graphDagCborBlake2b256.foldl
      (fun acc kv => insert (truncated_hash (h kv.2)) acc) S1,
    by simp [get_keys, hS1], ?_⟩
  intro x
  rw [mem_foldl_insert, hmem1 x]
  simp only [Finset.not_mem_empty, false_or]

/-- Witness for C4 at a concrete two-block store. -/
theorem get_keys_live_set_witness :
    ∃ S, get_keys (fun v => v ++ [0])
        ⟨[([1, 113, 160, 228, 2, 2, 3, 4], [3])],
         [([1, 85, 160, 228, 2, 1, 9], [4])], []⟩ = Except.ok S ∧
      ∀ x, x ∈ S ↔
        (∃ kv ∈ [(([1, 85, 160, 228, 2, 1, 9] : List Nat), ([4] : List Nat))],
          ∃ c, Cid.fromBytes kv.1 = some c ∧ x = truncated_hash c.digest) ∨
        (∃ kv ∈ [(([1, 113, 160, 228, 2, 2, 3, 4] : List Nat), ([3] : List Nat))],
          x = truncated_hash ((fun v => v ++ [0]) kv.2)) :=
  get_keys_live_set (fun v => v ++ [0])
    ⟨[([1, 113, 160, 228, 2, 2, 3, 4], [3])],
     [([1, 85, 160, 228, 2, 1, 9], [4])], []⟩ (by decide)

/-! ## The generic sweep abstraction

Both passes of `remove_keys` process a list of CIDs — parsed from keys in
the `GraphFull` pass, reconstructed from value hashes in the canonical
pass — dereferencing each targeted one in its own single-operation commit
and stopping at the first commit failure. -/

/-- One sweep pass over a list of candidate CIDs. -/
def genericSweep (oracle : Cid → Bool) (keys : Finset Nat) :
    List Cid → DbState → DbState × Option String
  | [], s => (s, none)
  | c :: t, s =>
    if truncated_hash c.digest ∈ keys then
      if oracle c then (s, some "error remove")
      else genericSweep oracle keys t (applyDereference c s)
    else genericSweep oracle keys t s

/-- The cumulative effect of dereferencing every targeted CID of a list, in
order, with no failures. -/
def applySweep (keys : Finset Nat) (cids : List Cid) (s : DbState) : DbState :=
  cids.foldl
    (fun st c =>
      if truncated_hash c.digest ∈ keys then applyDereference c st else st) s

theorem applySweep_cons (keys : Finset Nat) (c : Cid) (t : List Cid)
    (s : DbState) :
    applySweep keys (c :: t) s =
      applySweep keys t
        (if truncated_hash c.digest ∈ keys then applyDereference c s else s) :=
  rfl

theorem genericSweep_append (oracle : Cid → Bool) (keys : Finset Nat)
    (xs ys : List Cid) (s : DbState) :
    genericSweep oracle keys (xs ++ ys) s =
      match genericSweep oracle keys xs s with
      | (s1, some e) => (s1, some e)
      | (s1, none) => genericSweep oracle keys ys s1 := by
  induction xs generalizing s with
  | nil => rfl
  | cons c t ih =>
    simp only [List.cons_append, genericSweep]
    by_cases h1 : truncated_hash c.digest ∈ keys
    · by_cases h2 : oracle c
      · simp [h1, h2]
      · simp [h1, h2, ih]
    · simp [h1, ih]

theorem genericSweep_no_fail (oracle : Cid → Bool) (keys : Finset Nat)
    (l : List Cid) (s : DbState)
    (hok : ∀ c ∈ l, truncated_hash c.digest ∈ keys → oracle c = false) :
    genericSweep oracle keys l s = (applySweep keys l s, none) := by
  induction l generalizing s with
  | nil => rfl
  | cons c t ih =>
    rw [applySweep_cons]
    simp only [genericSweep]
    by_cases h1 : truncated_hash c.digest ∈ keys
    · have h2 : oracle c = false := hok c (List.mem_cons_self _ _) h1
      simp only [h1, if_true, h2, Bool.false_eq_true, if_false]
      exact ih _ fun c' hc' => hok c' (List.mem_cons_of_mem _ hc')
    · simp only [h1, if_false]
      exact ih _ fun c' hc' => hok c' (List.mem_cons_of_mem _ hc')

theorem applyDereference_column (c : Cid) (s : DbState) (col : DbColumn) :
    (applyDereference c s).column col =
      if choose_column c = col then listDereference c.toBytes (s.column col)
      else s.column col := by
  unfold applyDereference dereference_operation commitOps
  simp only [List.foldl_cons, List.foldl_nil, applyOp]
  rw [column_setColumn]
  split_ifs with hc
  · rw [hc]
  · rfl

theorem genericSweep_column_stable (oracle : Cid → Bool) (keys : Finset Nat)
    (l : List Cid) (s : DbState) (col : DbColumn)
    (hcol : ∀ c ∈ l, choose_column c ≠ col) :
    ((genericSweep oracle keys l s).1).column col = s.column col := by
  induction l generalizing s with
  | nil => rfl
  | cons c t ih =>
    simp only [genericSweep]
    by_cases h1 : truncated_hash c.digest ∈ keys
    · by_cases h2 : oracle c
      · simp [h1, h2]
      · rw [if_pos h1, if_neg h2]
        rw [ih _ fun c' hc' => hcol c' (List.mem_cons_of_mem _ hc')]
        rw [applyDereference_column]
        simp [hcol c (List.mem_cons_self _ _)]
    · simp only [h1, if_false]
      exact ih _ fun c' hc' => hcol c' (List.mem_cons_of_mem _ hc')

theorem genericSweep_mem (oracle : Cid → Bool) (keys : Finset Nat)
    (l : List Cid) (s : DbState) (col : DbColumn) (kv : List Nat × List Nat)
    (hmem : kv ∈ s.column col)
    (hsafe : ∀ c ∈ l, truncated_hash c.digest ∈ keys → c.toBytes ≠ kv.1) :
    kv ∈ ((genericSweep oracle keys l s).1).column col := by
  induction l generalizing s with
  | nil => exact hmem
  | cons c t ih =>
    simp only [genericSweep]
    by_cases h1 : truncated_hash c.digest ∈ keys
    · by_cases h2 : oracle c
      · simp only [h1, if_true, h2, if_true]
        exact hmem
      · simp only [h1, if_true, h2, if_false]
        refine ih _ ?_ fun c' hc' => hsafe c' (List.mem_cons_of_mem _ hc')
        rw [applyDereference_column]
        by_cases h3 : choose_column c = col
        · simp only [h3, if_true]
          exact mem_listDereference _ _ _ hmem
            fun he => hsafe c (List.mem_cons_self _ _) h1 he.symm
        · simp only [h3, if_false]
          exact hmem
    · simp only [h1, if_false]
      exact ih _ hmem fun c' hc' => hsafe c' (List.mem_cons_of_mem _ hc')

theorem pass1_eq_generic (oracle : Cid → Bool) (keys : Finset Nat)
    (l : List (List Nat × List Nat)) (s : DbState)
    (hp : ∀ kv ∈ l, (Cid.fromBytes kv.1).isSome) :
    removeKeysGraphFull oracle keys l s =
      genericSweep oracle keys ((l.map Prod.fst).filterMap Cid.fromBytes) s := by
  induction l generalizing s with
  | nil => rfl
  | cons hd t ih =>
    obtain ⟨k, v⟩ := hd
    have hs := hp (k, v) (List.mem_cons_self _ _)
    cases hk : Cid.fromBytes k with
    | none => rw [hk] at hs; simp at hs
    | some c =>
      have htail : ∀ kv ∈ t, (Cid.fromBytes kv.1).isSome :=
        fun kv hkv => hp kv (List.mem_cons_of_mem _ hkv)
      simp only [removeKeysGraphFull, hk, List.map_cons, List.filterMap_cons,
        genericSweep]
      by_cases h1 : truncated_hash c.digest ∈ keys
      · by_cases h2 : oracle c
        · simp [h1, h2]
        · simp [h1, h2, ih _ htail]
      · simp [h1, ih _ htail]

theorem pass2_eq_generic (h : List Nat → List Nat) (oracle : Cid → Bool)
    (keys : Finset Nat) (l : List (List Nat × List Nat)) (s : DbState) :
    removeKeysDagCbor h oracle keys l s =
      genericSweep oracle keys
        (l.map fun kv => Cid.newV1 DAG_CBOR BLAKE2B256 (h kv.2)) s := by
  induction l generalizing s with
  | nil => rfl
  | cons hd t ih =>
    obtain ⟨k, v⟩ := hd
    have hdig : (Cid.newV1 DAG_CBOR BLAKE2B256 (h v)).digest = h v := rfl
    simp only [removeKeysDagCbor, List.map_cons, genericSweep, hdig]
    by_cases h1 : truncated_hash (h v) ∈ keys
    · by_cases h2 : oracle (Cid.newV1 DAG_CBOR BLAKE2B256 (h v))
      · simp [h1, h2]
      · simp [h1, h2, ih]
    · simp [h1, ih]

/-- The candidate CIDs the sweep processes, in processing order: the parsed
`GraphFull` keys, then the CIDs reconstructed from the canonical column's
value hashes. -/
def sweepCids (h : List Nat → List Nat) (s : DbState) : List Cid :=
  (s.graphFull.map Prod.fst).filterMap Cid.fromBytes ++
    s.graphDagCborBlake2b256.map fun kv => Cid.newV1 DAG_CBOR BLAKE2B256 (h kv.2)

/-- Well-formedness of the `GraphFull` column: every key parses back into a
CID that `choose_column` routes to `GraphFull` — exactly what storing
through `put_keyed` produces. -/
def GraphFullKeysWf (s : DbState) : Prop :=
  ∀ kv ∈ s.graphFull, keyWf DbColumn.GraphFull kv.1 = true

instance (s : DbState) : Decidable (GraphFullKeysWf s) := by
  unfold GraphFullKeysWf
  infer_instance

theorem graphFullKeys_parse (s : DbState) (hwf : GraphFullKeysWf s) :
    ∀ kv ∈ s.graphFull, (Cid.fromBytes kv.1).isSome := by
  intro kv hkv
  obtain ⟨c, hc, _⟩ := (keyWf_iff _ _).mp (hwf kv hkv)
  simp [hc]

theorem filterMap_cids_choose (s : DbState) (hwf : GraphFullKeysWf s) :
    ∀ c ∈ (s.graphFull.map Prod.fst).filterMap Cid.fromBytes,
      choose_column c = DbColumn.GraphFull := by
  intro c hc
  rw [List.mem_filterMap] at hc
  obtain ⟨k, hk, hparse⟩ := hc
  rw [List.mem_map] at hk
  obtain ⟨kv, hkv, rfl⟩ := hk
  obtain ⟨c', hc', hch⟩ := (keyWf_iff _ _).mp (hwf kv hkv)
  rw [hparse] at hc'
  cases hc'
  exact hch

theorem remove_keys_eq_generic (h : List Nat → List Nat) (oracle : Cid → Bool)
    (keys : Finset Nat) (s : DbState) (hwf : GraphFullKeysWf s) :
    remove_keys h oracle keys s = genericSweep oracle keys (sweepCids h s) s := by
  unfold remove_keys sweepCids
  rw [pass1_eq_generic oracle keys s.graphFull s (graphFullKeys_parse s hwf),
    genericSweep_append]
  cases hgs : genericSweep oracle keys
      ((s.graphFull.map Prod.fst).filterMap Cid.fromBytes) s with
  | mk s1 e =>
    cases e with
    | some err => rfl
    | none =>
      have hstable := genericSweep_column_stable oracle keys
        ((s.graphFull.map Prod.fst).filterMap Cid.fromBytes) s
        DbColumn.GraphDagCborBlake2b256
        (fun c hc => by
          rw [filterMap_cids_choose s hwf c hc]
          decide)
      rw [hgs] at hstable
      simp only at hstable ⊢
      rw [pass2_eq_generic]
      have hcol : s1.graphDagCborBlake2b256 = s.graphDagCborBlake2b256 := hstable
      rw [hcol]


/-- C6: during the GC sweep, the first dereference-commit failure aborts the
remainder of the sweep and is surfaced to the caller, while every
dereference committed before the failure stays applied: if the sweep's
candidate list splits as `pre ++ c :: post` where `c` is the first targeted
candidate whose single-operation commit fails, `remove_keys` returns
exactly the state obtained by dereferencing the targeted candidates of
`pre`, paired with the failure. -/
theorem remove_keys_error_policy (h : List Nat → List Nat) (oracle : Cid → Bool)
    (keys : Finset Nat) (s : DbState) (pre post : List Cid) (c : Cid)
    (hwf : GraphFullKeysWf s)
    (hsplit : sweepCids h s = pre ++ c :: post)
    (hc : truncated_hash c.digest ∈ keys)
    (horacle : oracle c = true)
    (hpre : ∀ c' ∈ pre, truncated_hash c'.digest ∈ keys → oracle c' = false) :
    remove_keys h oracle keys s = (applySweep keys pre s, some "error remove") := by
  rw [remove_keys_eq_generic h oracle keys s hwf, hsplit, genericSweep_append,
    genericSweep_no_fail oracle keys pre s hpre]
  simp only [genericSweep]
  rw [if_pos hc, if_pos horacle]

/-- Witness for C6: two `GraphFull` blocks, both targeted; the dereference
of the second fails, leaving the first deleted and the error surfaced. -/
theorem remove_keys_error_policy_witness :
    remove_keys (fun _ => []) (fun c => c.digest == [2, 0, 0, 0]) {1, 2}
        ⟨[], [(Cid.toBytes ⟨0x55, 0xb220, [1, 0, 0, 0]⟩, [1]),
              (Cid.toBytes ⟨0x55, 0xb220, [2, 0, 0, 0]⟩, [2])], []⟩ =
      (applySweep {1, 2} [⟨0x55, 0xb220, [1, 0, 0, 0]⟩]
          ⟨[], [(Cid.toBytes ⟨0x55, 0xb220, [1, 0, 0, 0]⟩, [1]),
                (Cid.toBytes ⟨0x55, 0xb220, [2, 0, 0, 0]⟩, [2])], []⟩,
        some "error remove") :=
  remove_keys_error_policy (fun _ => []) (fun c => c.digest == [2, 0, 0, 0])
    {1, 2}
    ⟨[], [(Cid.toBytes ⟨0x55, 0xb220, [1, 0, 0, 0]⟩, [1]),
          (Cid.toBytes ⟨0x55, 0xb220, [2, 0, 0, 0]⟩, [2])], []⟩
    [⟨0x55, 0xb220, [1, 0, 0, 0]⟩] [] ⟨0x55, 0xb220, [2, 0, 0, 0]⟩
    (by decide) (by decide) (by decide) (by decide) (by decide)

/-- C5 counterexample: two distinct `GraphFull` blocks whose truncated
hashes collide.  Targeting only the first block's truncated hash (the
caller intends to remove only that block) also deletes the second,
non-targeted block: `remove_keys` completes without error and the second
block's key no longer resolves. -/
theorem remove_keys_collision_counterexample :
    (⟨0x55, 0xb220, [7, 7, 7, 7, 1]⟩ : Cid) ≠ ⟨0x55, 0xb220, [7, 7, 7, 7, 2]⟩ ∧
    truncated_hash [7, 7, 7, 7, 1] = truncated_hash [7, 7, 7, 7, 2] ∧
    read_from_column
        ⟨[], [(Cid.toBytes ⟨0x55, 0xb220, [7, 7, 7, 7, 1]⟩, [1]),
              (Cid.toBytes ⟨0x55, 0xb220, [7, 7, 7, 7, 2]⟩, [2])], []⟩
        (Cid.toBytes ⟨0x55, 0xb220, [7, 7, 7, 7, 2]⟩) DbColumn.GraphFull =
      some [2] ∧
    (remove_keys (fun _ => []) (fun _ => false)
        {truncated_hash [7, 7, 7, 7, 1]}
        ⟨[], [(Cid.toBytes ⟨0x55, 0xb220, [7, 7, 7, 7, 1]⟩, [1]),
              (Cid.toBytes ⟨0x55, 0xb220, [7, 7, 7, 7, 2]⟩, [2])], []⟩).2 =
      none ∧
    read_from_column
        (remove_keys (fun _ => []) (fun _ => false)
          {truncated_hash [7, 7, 7, 7, 1]}
          ⟨[], [(Cid.toBytes ⟨0x55, 0xb220, [7, 7, 7, 7, 1]⟩, [1]),
                (Cid.toBytes ⟨0x55, 0xb220, [7, 7, 7, 7, 2]⟩, [2])], []⟩).1
        (Cid.toBytes ⟨0x55, 0xb220, [7, 7, 7, 7, 2]⟩) DbColumn.GraphFull =
      none := by
  decide

/-- C5 (amended): sweeping never deletes a block whose own truncated hash is
outside the target set — over-deletion can only hit blocks that collide
into the target set, so a block survives whenever its truncated hash avoids
the set, in a store whose `GraphFull` keys are well-formed and whose
canonical column is content-addressed. -/
theorem remove_keys_nontargeted_survive (h : List Nat → List Nat)
    (oracle : Cid → Bool) (keys : Finset Nat) (s : DbState)
    (hwf : GraphFullKeysWf s)
    (hca : ∀ kv ∈ s.graphDagCborBlake2b256,
      kv.1 = (Cid.newV1 DAG_CBOR BLAKE2B256 (h kv.2)).toBytes) :
    (∀ kv ∈ s.graphFull, ∀ c, Cid.fromBytes kv.1 = some c →
      truncated_hash c.digest ∉ keys →
      kv ∈ (remove_keys h oracle keys s).1.graphFull) ∧
    (∀ kv ∈ s.graphDagCborBlake2b256, truncated_hash (h kv.2) ∉ keys →
      kv ∈ (remove_keys h oracle keys s).1.graphDagCborBlake2b256) := by
  rw [remove_keys_eq_generic h oracle keys s hwf]
  constructor
  · intro kv hkv c hc hnot
    have hmem : kv ∈ DbState.column s DbColumn.GraphFull := hkv
    have := genericSweep_mem oracle keys (sweepCids h s) s DbColumn.GraphFull kv
      hmem ?_
    · exact this
    · intro c' _ htarget heq
      have hc' : Cid.fromBytes kv.1 = some c' := by
        rw [← heq]
        exact Cid.fromBytes_toBytes c'
      rw [hc] at hc'
      cases hc'
      exact hnot htarget
  · intro kv hkv hnot
    have hmem : kv ∈ DbState.column s DbColumn.GraphDagCborBlake2b256 := hkv
    have := genericSweep_mem oracle keys (sweepCids h s) s
      DbColumn.GraphDagCborBlake2b256 kv hmem ?_
    · exact this
    · intro c' _ htarget heq
      have hkey := hca kv hkv
      rw [hkey] at heq
      have hcc : c' = Cid.newV1 DAG_CBOR BLAKE2B256 (h kv.2) :=
        Cid.toBytes_injective heq
      subst hcc
      exact hnot htarget

/-- Witness for C5's amended statement: a lone non-targeted `GraphFull`
block survives a sweep. -/
theorem remove_keys_nontargeted_survive_witness :
    (Cid.toBytes ⟨0x55, 0xb220, [3, 0, 0, 0]⟩, [9]) ∈
      (remove_keys (fun _ => []) (fun _ => false) {4242}
        ⟨[], [(Cid.toBytes ⟨0x55, 0xb220, [3, 0, 0, 0]⟩, [9])], []⟩).1.graphFull :=
  (remove_keys_nontargeted_survive (fun _ => []) (fun _ => false) {4242}
      ⟨[], [(Cid.toBytes ⟨0x55, 0xb220, [3, 0, 0, 0]⟩, [9])], []⟩
      (by decide) (by decide)).1
    (Cid.toBytes ⟨0x55, 0xb220, [3, 0, 0, 0]⟩, [9]) (by decide)
    ⟨0x55, 0xb220, [3, 0, 0, 0]⟩ (by decide) (by decide)

end ForestDb
